import Mathlib

set_option maxRecDepth 100000

/-!
Verification development for the collection-and-deduplication engine of
`bin/finance_news_collect.py` (repository `Davisanity-TW/stock_report`).

The Python source is shallowly embedded as executable Lean definitions:

* Python `str` values become `String` (compared, as Python does, by code
  points; the sort key uses `String.data : List Char` with the
  lexicographic order so that comparisons are kernel-computable);
* Python `float` values (source weights, similarity scores, thresholds,
  timestamps-as-seconds) become `ℚ`.  Rational arithmetic is exact where
  the floating-point original rounds; no claim in this development
  depends on a comparison close enough for double rounding to matter;
* Python dicts holding news items become the structure `Item`; the
  `alt_links` / `alt_sources` keys, which Python creates lazily with
  `setdefault`, are fields that default to `[]`;
* fallible code returns `Except String`; the network / XML / datetime
  stdlib boundaries (`requests`, `ElementTree`, `datetime.fromisoformat`,
  `datetime.isoformat`) are passed in as function parameters, so the
  theorems quantify over their behaviour.
-/

/-! ## Python string helpers

`title_norm` (source lines 82–85) does `s.strip().lower()` followed by
`re.sub(r"\s+", " ", s)`.  `canonical_url` (lines 76–79) strips.  The
whitespace class is the ASCII part of Python's `\s` / `str.strip`
default; `str.lower` is modelled on its ASCII action (all titles and
links in the concrete inputs used below are ASCII). -/

def pyIsSpace (c : Char) : Bool :=
  c = ' ' || c = '\t' || c = '\n' || c = '\r' || c = '\x0b' || c = '\x0c'

def pyStripList (l : List Char) : List Char :=
  ((l.dropWhile pyIsSpace).reverse.dropWhile pyIsSpace).reverse

def pyStrip (s : String) : String :=
  ⟨pyStripList s.data⟩

def pyLowerChar (c : Char) : Char :=
  if 'A' ≤ c ∧ c ≤ 'Z' then Char.ofNat (c.toNat + 32) else c

/-- `re.sub(r"\s+", " ", s)`: every maximal run of whitespace becomes a
single space.  The boolean argument records whether the previous
character was part of a whitespace run. -/
def collapseWsAux : Bool → List Char → List Char
  | _, [] => []
  | prevWs, c :: rest =>
    if pyIsSpace c then
      if prevWs then collapseWsAux true rest
      else ' ' :: collapseWsAux true rest
    else c :: collapseWsAux false rest

/-- Source `title_norm` (lines 82–85). -/
def title_norm (s : String) : String :=
  ⟨collapseWsAux false ((pyStripList s.data).map pyLowerChar)⟩

/-- Source `canonical_url` (lines 76–79): strip only ("keep as-is for
exact-url dedup").  A `None` link has already become `""` at the call
site (`e.get("link") or ""`). -/
def canonical_url (u : String) : String :=
  pyStrip u

/-! ## `difflib.SequenceMatcher(None, a, b).ratio()`

`title_sim` (source lines 88–92) calls the stdlib sequence matcher with
no junk predicate.  The matcher is embedded faithfully:

* `b2j` keeps, for every character, its positions in `b`; when
  `len(b) >= 200` the "autojunk" heuristic drops characters occurring
  more than `len(b) // 100 + 1` times (`isPopular`);
* `find_longest_match` runs the common-suffix dynamic programme over a
  window, preferring the earliest maximal block, then extends the block
  over adjacent equal characters (the junk-extension loops of the
  stdlib are no-ops because the junk set is empty here);
* `get_matching_blocks` recursively splits around the longest match;
  only the total matched size is needed for `ratio`, so the embedding
  computes that total directly (`matchingTotal`).  The recursion is
  expressed with a fuel argument; every split strictly shrinks the
  window, so fuel `|a| + |b| + 1` never runs out;
* `ratio` is `2 * matches / (len(a) + len(b))`, built with `mkRat`
  (exact, and kernel-computable unlike `ℚ` division). -/

def isPopular (b : List Char) (c : Char) : Bool :=
  decide (200 ≤ b.length) && decide (b.length / 100 + 1 < b.count c)

/-- One row of the `j2len` dynamic programme: the common-suffix length
ending at `a`-index `i` (character `ai`) and each `b`-index `j` inside
the window `[blo, bhi)`.  `prev` is the row for `i - 1`. -/
def flmRow (b : List Char) (blo bhi : Nat) (ai : Char) (prev : List Nat) : List Nat :=
  (List.range b.length).map fun j =>
    if blo ≤ j ∧ j < bhi ∧ b.getD j ' ' = ai ∧ ¬ isPopular b ai then
      (if j = 0 then 0 else prev.getD (j - 1) 0) + 1
    else 0

structure FlmBest where
  besti : Nat
  bestj : Nat
  bestsize : Nat
deriving DecidableEq, Repr

/-- Scan a row in ascending `j`, updating the best block exactly when a
strictly larger one is found (`k > bestsize` in the stdlib). -/
def flmScan (row : List Nat) (i : Nat) (st : FlmBest) : FlmBest :=
  (List.range row.length).foldl
    (fun st j =>
      let k := row.getD j 0
      if st.bestsize < k then ⟨i + 1 - k, j + 1 - k, k⟩ else st)
    st

/-- The dynamic-programming part of `find_longest_match` over the window
`[alo, ahi) × [blo, bhi)`. -/
def flmDP (a b : List Char) (alo ahi blo bhi : Nat) : FlmBest :=
  ((List.range' alo (ahi - alo)).foldl
    (fun (acc : FlmBest × List Nat) i =>
      let row := flmRow b blo bhi (a.getD i ' ') acc.2
      (flmScan row i acc.1, row))
    (⟨alo, blo, 0⟩, List.replicate b.length 0)).1

/-- Left extension loop: while the characters just before the block are
equal (and inside the window), grow the block.  Fuel is `besti`. -/
def extLeft (a b : List Char) (alo blo : Nat) :
    Nat → Nat → Nat → Nat → Nat × Nat × Nat
  | 0, besti, bestj, bestsize => (besti, bestj, bestsize)
  | fuel + 1, besti, bestj, bestsize =>
    if alo < besti ∧ blo < bestj ∧ a.getD (besti - 1) ' ' = b.getD (bestj - 1) ' ' then
      extLeft a b alo blo fuel (besti - 1) (bestj - 1) (bestsize + 1)
    else (besti, bestj, bestsize)

/-- Right extension loop; returns the extended size.  Fuel is `ahi`. -/
def extRight (a b : List Char) (ahi bhi besti bestj : Nat) :
    Nat → Nat → Nat
  | 0, bestsize => bestsize
  | fuel + 1, bestsize =>
    if besti + bestsize < ahi ∧ bestj + bestsize < bhi ∧
        a.getD (besti + bestsize) ' ' = b.getD (bestj + bestsize) ' ' then
      extRight a b ahi bhi besti bestj fuel (bestsize + 1)
    else bestsize

def findLongestMatch (a b : List Char) (alo ahi blo bhi : Nat) : Nat × Nat × Nat :=
  let st := flmDP a b alo ahi blo bhi
  let r := extLeft a b alo blo st.besti st.besti st.bestj st.bestsize
  (r.1, r.2.1, extRight a b ahi bhi r.1 r.2.1 ahi r.2.2)

/-- Total size of all matching blocks (the `sum` that `ratio` needs). -/
def matchingTotal (a b : List Char) : Nat → Nat → Nat → Nat → Nat → Nat
  | 0, _, _, _, _ => 0
  | fuel + 1, alo, ahi, blo, bhi =>
    let m := findLongestMatch a b alo ahi blo bhi
    let i := m.1
    let j := m.2.1
    let k := m.2.2
    if k = 0 then 0
    else
      k + (if alo < i ∧ blo < j then matchingTotal a b fuel alo i blo j else 0)
        + (if i + k < ahi ∧ j + k < bhi then matchingTotal a b fuel (i + k) ahi (j + k) bhi else 0)

/-- `SequenceMatcher(None, a, b).ratio()` as an exact rational. -/
def seqSim (sa sb : String) : ℚ :=
  let a := sa.data
  let b := sb.data
  let total := a.length + b.length
  let msum := matchingTotal a b (total + 1) 0 a.length 0 b.length
  if total = 0 then 1 else mkRat (Int.ofNat (2 * msum)) total

/-- Source `title_sim` (lines 88–92). -/
def title_sim (a b : String) : ℚ :=
  let a2 := title_norm a
  let b2 := title_norm b
  if a2 = "" ∨ b2 = "" then 0 else seqSim a2 b2

/-! ## Items and the dedup sort order

A news item is the dict built by `_collect_one` (source lines 263–276).
In the generality that `_dedup` is exercised below, the `alt_links` /
`alt_sources` keys may also already be present (Python's `setdefault`
makes them appear lazily; here they are fields defaulting to `[]`). -/

structure Item where
  title : String := ""
  link : String := ""
  published_at : String := ""
  source : String := ""
  source_id : String := ""
  language : Option String := none
  weight : ℚ := 1
  tags : List String := []
  raw_summary : String := ""
  feed_url : String := ""
  alt_links : List String := []
  alt_sources : List String := []
deriving DecidableEq, Inhabited, Repr

/-- The sort key of `_dedup` (source line 282):
`(x.get("published_at", ""), x.get("weight", 0.0))`.  Python compares
the strings by code points, then the floats; the string is exposed as
`List Char` so the comparison is the Mathlib lexicographic order. -/
def itemKey (x : Item) : List Char × ℚ :=
  (x.published_at.data, x.weight)

/-- Non-strict comparison of sort keys (Python tuple `<=`). -/
def keyLe (a b : List Char × ℚ) : Prop :=
  a.1 < b.1 ∨ (a.1 = b.1 ∧ a.2 ≤ b.2)

instance (a b : List Char × ℚ) : Decidable (keyLe a b) := by
  unfold keyLe; infer_instance

/-- Stable descending insertion: `x` (which precedes the list elements
in the original order) goes before the first element whose key is not
greater than `x`'s.  Ties therefore keep the original order, exactly as
Python's stable `sorted(..., reverse=True)` does. -/
def insertItem (x : Item) : List Item → List Item
  | [] => [x]
  | y :: ys => if keyLe (itemKey y) (itemKey x) then x :: y :: ys else y :: insertItem x ys

/-- `sorted(items, key=lambda x: (published_at, weight), reverse=True)`
(source line 282): the unique stable descending sort by `itemKey`. -/
def pySortDesc : List Item → List Item
  | [] => []
  | x :: xs => insertItem x (pySortDesc xs)

/-! ## `_dedup` (source lines 279–307) -/

/-- The merge branch body (source lines 291–296): record the duplicate's
link and source on the kept primary `k`, each guarded by Python
truthiness (`u and ...`, `it.get("source") and ...`), novelty, and
difference from the primary's own link/source. -/
def mergeRecord (k it : Item) : Item :=
  let u := it.link
  let al := if u ≠ "" ∧ u ∉ k.alt_links ∧ u ≠ k.link then k.alt_links ++ [u] else k.alt_links
  let as_ := if it.source ≠ "" ∧ it.source ∉ k.alt_sources ∧ it.source ≠ k.source then
      k.alt_sources ++ [it.source]
    else k.alt_sources
  { k with alt_links := al, alt_sources := as_ }

/-- The inner `for k in kept` loop (source lines 288–298): find the
first kept item whose title similarity with `it` reaches the threshold;
if found, return the kept list with that item updated in place
(`some`), else `none` (`is_dup` stays false). -/
def mergeInto (θ : ℚ) (it : Item) : List Item → Option (List Item)
  | [] => none
  | k :: ks =>
    if title_sim it.title k.title ≥ θ then some (mergeRecord k it :: ks)
    else
      match mergeInto θ it ks with
      | some ks' => some (k :: ks')
      | none => none

/-- The main loop of `_dedup` (source lines 282–305), with the `seen_url`
set and the `kept` list as explicit state.  Returns the final
`(kept, seen_url)`. -/
def dedupLoop (θ : ℚ) : List Item → List String → List Item → List Item × List String
  | [], seen, kept => (kept, seen)
  | it :: rest, seen, kept =>
    if it.link ≠ "" ∧ it.link ∈ seen then dedupLoop θ rest seen kept
    else
      match mergeInto θ it kept with
      | some kept' => dedupLoop θ rest seen kept'
      | none =>
        dedupLoop θ rest (if it.link ≠ "" then it.link :: seen else seen) (kept ++ [it])

/-- Source `_dedup` (lines 279–307).  `u = it.get("link") or ""` is the
`link` field itself (a missing/`None` link has already become `""`). -/
def _dedup (θ : ℚ) (items : List Item) : List Item :=
  (dedupLoop θ (pySortDesc items) [] []).1

/-- The descending comparison actually used between adjacent sorted
items: the earlier has key ≥ the later. -/
def keyGeRel (a b : Item) : Prop := keyLe (itemKey b) (itemKey a)

/-- Strict descending key order; asymmetric, hence vacuously antisymmetric. -/
def keyGtRel (a b : Item) : Prop :=
  keyLe (itemKey b) (itemKey a) ∧ itemKey a ≠ itemKey b

/-! ## The collection pipeline (source lines 231–331)

`load_sources` / `build_url` resolve configuration into per-region
source lists; `collect` receives that resolved map as the `regions`
parameter (no claim concerns the YAML traversal itself).  The fallible
per-source prefix of `_collect_one` — `build_url`, `fetch_xml`,
`parse_items` (any of which may raise) — is the parameter `fetch`,
returning the feed url and the parsed entry records on success.  The
stdlib datetime boundary is split into `parse` (the guarded
`datetime.fromisoformat(...).astimezone(utc)` of lines 252–255, as
seconds-since-epoch rationals) and `fmt` (`dt.isoformat()`).  Python's
`except Exception` around the whole `_collect_one` call is the
`Except` propagation: a source failing anywhere contributes one error
entry and no items. -/

structure Source where
  id : String := ""
  name : String := ""
  language : Option String := none
  weight : ℚ := 1
  tags : List String := []
deriving DecidableEq, Inhabited, Repr

/-- One record produced by `parse_items` (source lines 160–213). -/
structure ParsedEntry where
  title : String := ""
  link : String := ""
  published_at : Option String := none
  raw_summary : String := ""
deriving DecidableEq, Inhabited, Repr

/-- The per-entry body of the filter loop in `_collect_one` (source
lines 249–276).  `if e.get("published_at"):` is Python truthiness, so
an empty string is as undated as `None`; an unparsable timestamp also
yields `none`; both are dropped, as is anything older than the
cutoff. -/
def entryItem (parse : String → Option ℚ) (fmt : ℚ → String) (cutoff : ℚ)
    (src : Source) (url : String) (e : ParsedEntry) : Option Item :=
  let dt? : Option ℚ :=
    match e.published_at with
    | none => none
    | some s => if s = "" then none else parse s
  match dt? with
  | none => none
  | some dt =>
    if dt < cutoff then none
    else
      some { title := pyStrip e.title, link := canonical_url e.link,
             published_at := fmt dt, source := src.name, source_id := src.id,
             language := src.language, weight := src.weight, tags := src.tags,
             raw_summary := pyStrip e.raw_summary, feed_url := url }

/-- The item list `_collect_one` returns once the fallible prefix has
succeeded. -/
def collectOne (parse : String → Option ℚ) (fmt : ℚ → String) (cutoff : ℚ)
    (src : Source) (url : String) (entries : List ParsedEntry) : List Item :=
  entries.filterMap (entryItem parse fmt cutoff src url)

structure ErrEntry where
  source : String
  error : String
deriving DecidableEq, Inhabited, Repr

structure RegionOut where
  items : List Item := []
  errors : List ErrEntry := []
  sources : List String := []
deriving DecidableEq, Inhabited, Repr

/-- One iteration of the per-source loop in `collect` (source lines
319–323): on success extend the region's items, on any failure append
one `{source, error}` record and move on. -/
def collectStep (parse : String → Option ℚ) (fmt : ℚ → String) (cutoff : ℚ)
    (fetch : Source → Except String (String × List ParsedEntry))
    (acc : List Item × List ErrEntry) (src : Source) : List Item × List ErrEntry :=
  match fetch src with
  | .ok r => (acc.1 ++ collectOne parse fmt cutoff src r.1 r.2, acc.2)
  | .error e => (acc.1, acc.2 ++ [⟨src.id, e⟩])

/-- The per-region loop of `collect` (source lines 316–329): accumulate
items and error records over the sources, then dedup once. -/
def collectRegion (θ cutoff : ℚ) (parse : String → Option ℚ) (fmt : ℚ → String)
    (fetch : Source → Except String (String × List ParsedEntry))
    (srcs : List Source) : RegionOut :=
  let acc := srcs.foldl (collectStep parse fmt cutoff fetch) ([], [])
  { items := _dedup θ acc.1, errors := acc.2, sources := srcs.map Source.id }

structure CollectionResult where
  generated_at : ℚ
  window_hours : ℚ
  cutoff_utc : ℚ
  regions : List (String × RegionOut)

/-! ## The configured threshold (source lines 234–239)

A YAML value, and the exact lookup expression
`cfg.get("global", {}).get("deduplication", {}).get("rules", [{}, {}])[1]
.get("threshold", 0.9)` wrapped in `float(...)`.  Each step that Python
would raise on becomes an `Except.error`. -/

inductive YVal where
  | dict : List (String × YVal) → YVal
  | list : List YVal → YVal
  | num : ℚ → YVal
  | str : String → YVal
  | bool : Bool → YVal
  | null : YVal

/-- Python `v.get(key, default)`: only dicts have `.get`; a missing key
yields the default. -/
def dictGet : YVal → String → YVal → Except String YVal
  | .dict es, k, dflt => .ok ((es.lookup k).getD dflt)
  | _, _, _ => .error "AttributeError: no attribute get"

/-- Python `v[1]`.  Lists index (IndexError when shorter than 2);
strings index to a 1-character string; everything else raises. -/
def index1 : YVal → Except String YVal
  | .list es =>
    match es.get? 1 with
    | some v => .ok v
    | none => .error "IndexError: list index out of range"
  | .str s =>
    match s.data.get? 1 with
    | some c => .ok (.str ⟨[c]⟩)
    | none => .error "IndexError: string index out of range"
  | _ => .error "TypeError: object is not subscriptable"

/-- Python `float(v)` on the looked-up threshold.  Numbers (and bools)
convert; numeric strings, which `float` would also accept, do not occur
in any claim and are conservatively mapped to an error. -/
def pyFloat : YVal → Except String ℚ
  | .num v => .ok v
  | .bool b => .ok (if b then 1 else 0)
  | _ => .error "TypeError: float() argument"

/-- The threshold expression of `collect` (source lines 234–239); the
first raising step aborts the whole expression. -/
def getThreshold (cfg : YVal) : Except String ℚ :=
  match dictGet cfg "global" (.dict []) with
  | .error e => .error e
  | .ok g =>
    match dictGet g "deduplication" (.dict []) with
    | .error e => .error e
    | .ok d =>
      match dictGet d "rules" (.list [.dict [], .dict []]) with
      | .error e => .error e
      | .ok rs =>
        match index1 rs with
        | .error e => .error e
        | .ok r1 =>
          match dictGet r1 "threshold" (.num (mkRat 9 10)) with
          | .error e => .error e
          | .ok t => pyFloat t

def isErr {α : Type} : Except String α → Bool
  | .error _ => true
  | .ok _ => false

/-- Source `collect` (lines 231–331): threshold first (so a threshold
failure aborts the run before any source is touched), then the cutoff
`now_utc() - timedelta(hours=window_hours)` (seconds), then one
`RegionOut` per region. -/
def collect (cfg : YVal) (nowT window_hours : ℚ) (parse : String → Option ℚ)
    (fmt : ℚ → String) (fetch : Source → Except String (String × List ParsedEntry))
    (regions : List (String × List Source)) : Except String CollectionResult :=
  (getThreshold cfg).map fun θ =>
    let cutoff := nowT - window_hours * 3600
    { generated_at := nowT, window_hours := window_hours, cutoff_utc := cutoff,
      regions := regions.map fun r => (r.1, collectRegion θ cutoff parse fmt fetch r.2) }

/-! ## Specification-side renderings of the dedup step

`specDedupC1` is written from the words of the specification's account
of the algorithm (claim C1): items in stable-sorted descending order;
an item merges into the first already-kept item of similarity ≥
threshold (link appended unless equal to the primary's or present,
source likewise), otherwise it is appended as a new primary — with
*no* exact-link suppression step and *no* nonemptiness guards, since
the account mentions neither.  `specDedupC1A` is the amended account:
the suppression step and the truthiness guards restored (its merge
record is exactly `mergeRecord`). -/

def firstMatchIdx (θ : ℚ) (it : Item) : List Item → Option Nat
  | [] => none
  | k :: ks =>
    if title_sim it.title k.title ≥ θ then some 0
    else (firstMatchIdx θ it ks).map (· + 1)

def updateAt : Nat → (Item → Item) → List Item → List Item
  | _, _, [] => []
  | 0, f, k :: ks => f k :: ks
  | i + 1, f, k :: ks => k :: updateAt i f ks

def specMergeC1 (k it : Item) : Item :=
  let al := if it.link ≠ k.link ∧ it.link ∉ k.alt_links then k.alt_links ++ [it.link]
    else k.alt_links
  let as_ := if it.source ≠ k.source ∧ it.source ∉ k.alt_sources then
      k.alt_sources ++ [it.source]
    else k.alt_sources
  { k with alt_links := al, alt_sources := as_ }

def specStepC1 (θ : ℚ) (kept : List Item) (it : Item) : List Item :=
  match firstMatchIdx θ it kept with
  | some i => updateAt i (fun k => specMergeC1 k it) kept
  | none => kept ++ [it]

def specDedupC1 (θ : ℚ) (items : List Item) : List Item :=
  (pySortDesc items).foldl (specStepC1 θ) []

def specStepC1A (θ : ℚ) (st : List Item × List String) (it : Item) :
    List Item × List String :=
  if it.link ≠ "" ∧ it.link ∈ st.2 then st
  else
    match firstMatchIdx θ it st.1 with
    | some i => (updateAt i (fun k => mergeRecord k it) st.1, st.2)
    | none => (st.1 ++ [it], if it.link ≠ "" then it.link :: st.2 else st.2)

def specDedupC1A (θ : ℚ) (items : List Item) : List Item :=
  ((pySortDesc items).foldl (specStepC1A θ) ([], [])).1

/-! ## Concrete inputs used by counterexamples and witnesses -/

/-- Item A of the specification's dedup scenario. -/
def itFedA : Item :=
  { title := "Fed cuts rates", link := "L1",
    published_at := "2025-01-01T12:00:00+00:00", source := "s1" }

/-- Item B of the specification's dedup scenario (one minute earlier). -/
def itFedB : Item :=
  { title := "Fed Cuts Rates by 25bps", link := "L2",
    published_at := "2025-01-01T11:59:00+00:00", source := "s2" }

/-- Two items with the same link but unrelated titles. -/
def itDupA : Item :=
  { title := "alpha report", link := "https://x/1",
    published_at := "2025-01-01T12:00:00+00:00", source := "s1" }

def itDupB : Item :=
  { title := "zz unrelated", link := "https://x/1",
    published_at := "2025-01-01T11:00:00+00:00", source := "s2" }

/-- Two items with equal `(published_at, weight)` sort keys, unrelated
titles, distinct links. -/
def itTieA : Item :=
  { title := "gamma story", link := "https://x/2",
    published_at := "2025-01-01T12:00:00+00:00", source := "s1" }

def itTieB : Item :=
  { title := "omega piece", link := "https://x/3",
    published_at := "2025-01-01T12:00:00+00:00", source := "s2" }

/-- Two items with empty links and unrelated titles. -/
def itNilA : Item :=
  { title := "gamma story", link := "",
    published_at := "2025-01-01T12:00:00+00:00", source := "s1" }

def itNilB : Item :=
  { title := "omega piece", link := "",
    published_at := "2025-01-01T11:00:00+00:00", source := "s2" }

/-- An input item whose `alt_links` already contains its own link. -/
def itSelfAlt : Item :=
  { title := "alpha report", link := "https://x/9",
    published_at := "2025-01-01T12:00:00+00:00", source := "s1",
    alt_links := ["https://x/9"] }

/-- Two items with distinct `(published_at, weight)` sort keys. -/
def itW1 : Item :=
  { title := "gamma story", link := "https://x/2",
    published_at := "2025-01-02T12:00:00+00:00", source := "s1" }

def itW2 : Item :=
  { title := "omega piece", link := "https://x/3",
    published_at := "2025-01-01T12:00:00+00:00", source := "s2" }

def srcA : Source := { id := "a", name := "A" }

def srcB : Source := { id := "b", name := "B" }

/-- A fetch behaviour where source `a` fails and everything else
succeeds with an empty feed. -/
def fetchW : Source → Except String (String × List ParsedEntry) :=
  fun s => if s.id = "a" then .error "boom" else .ok ("u", [])

def peBad : ParsedEntry := { title := "x", link := "l", published_at := some "garbage" }

def cfgShortRules : YVal :=
  .dict [("global", .dict [("deduplication", .dict [("rules", .list [.dict []])])])]

theorem keyLe_total (a b : List Char × ℚ) : keyLe a b ∨ keyLe b a := by
  rcases lt_trichotomy a.1 b.1 with h | h | h
  · exact Or.inl (Or.inl h)
  · rcases le_total a.2 b.2 with h2 | h2
    · exact Or.inl (Or.inr ⟨h, h2⟩)
    · exact Or.inr (Or.inr ⟨h.symm, h2⟩)
  · exact Or.inr (Or.inl h)

theorem keyLe_trans {a b c : List Char × ℚ} (h1 : keyLe a b) (h2 : keyLe b c) :
    keyLe a c := by
  rcases h1 with h1 | ⟨e1, w1⟩
  · rcases h2 with h2 | ⟨e2, _⟩
    · exact Or.inl (h1.trans h2)
    · exact Or.inl (e2 ▸ h1)
  · rcases h2 with h2 | ⟨e2, w2⟩
    · exact Or.inl (e1 ▸ h2)
    · exact Or.inr ⟨e1.trans e2, w1.trans w2⟩

theorem keyLe_antisymm {a b : List Char × ℚ} (h1 : keyLe a b) (h2 : keyLe b a) :
    a = b := by
  rcases h1 with h1 | ⟨e1, w1⟩
  · rcases h2 with h2 | ⟨e2, _⟩
    · exact absurd h1 (lt_asymm h2)
    · exact absurd h1 (e2 ▸ lt_irrefl b.1)
  · rcases h2 with h2 | ⟨_, w2⟩
    · exact absurd h2 (e1 ▸ lt_irrefl a.1)
    · exact Prod.ext e1 (le_antisymm w1 w2)

/-! ## Basic facts about the merge branch -/

theorem mergeRecord_title (k it : Item) : (mergeRecord k it).title = k.title := rfl

theorem mergeRecord_link (k it : Item) : (mergeRecord k it).link = k.link := rfl

theorem mergeRecord_published_at (k it : Item) :
    (mergeRecord k it).published_at = k.published_at := rfl

theorem mergeRecord_itemKey (k it : Item) : itemKey (mergeRecord k it) = itemKey k := rfl

/-- A successful merge only edits `alt_links` / `alt_sources` of one
kept item: any projection that ignores those fields is unchanged on the
whole kept list. -/
theorem mergeInto_map {α : Type} {θ : ℚ} {it : Item} (f : Item → α)
    (hf : ∀ k : Item, f (mergeRecord k it) = f k) :
    ∀ {kept kept' : List Item}, mergeInto θ it kept = some kept' →
      kept'.map f = kept.map f := by
  intro kept
  induction kept with
  | nil => intro kept' h; simp [mergeInto] at h
  | cons k ks ih =>
    intro kept' h
    simp only [mergeInto] at h
    split at h
    · cases h
      simp [hf]
    · cases hmi : mergeInto θ it ks with
      | none => rw [hmi] at h; cases h
      | some ks' =>
        rw [hmi] at h
        cases h
        simp [ih hmi]

/-- The inner loop finds no primary exactly when every kept item scores
strictly below the threshold. -/
theorem mergeInto_none_iff {θ : ℚ} {it : Item} {kept : List Item} :
    mergeInto θ it kept = none ↔ ∀ k ∈ kept, title_sim it.title k.title < θ := by
  induction kept with
  | nil => simp [mergeInto]
  | cons k ks ih =>
    simp only [mergeInto]
    split
    · rename_i hsim
      constructor
      · intro h; cases h
      · intro h
        exact absurd (h k (by simp)) (not_lt.mpr hsim)
    · rename_i hsim
      cases hmi : mergeInto θ it ks with
      | none =>
        simp only [true_iff]
        intro k' hk'
        rcases List.mem_cons.mp hk' with rfl | hk'
        · exact lt_of_not_ge hsim
        · exact (ih.mp hmi) k' hk'
      | some ks' =>
        simp only [reduceCtorEq, false_iff]
        intro hall
        have hnone : mergeInto θ it ks = none :=
          ih.mpr fun k' hk' => hall k' (by simp [hk'])
        rw [hmi] at hnone
        cases hnone

/-- Merging preserves any per-item predicate that `mergeRecord` preserves. -/
theorem mergeInto_forall {θ : ℚ} {it : Item} (P : Item → Prop)
    (hP : ∀ k : Item, P k → P (mergeRecord k it)) :
    ∀ {kept kept' : List Item}, mergeInto θ it kept = some kept' →
      (∀ k ∈ kept, P k) → ∀ k' ∈ kept', P k' := by
  intro kept
  induction kept with
  | nil => intro kept' h; simp [mergeInto] at h
  | cons k ks ih =>
    intro kept' h hall
    simp only [mergeInto] at h
    split at h
    · cases h
      intro k' hk'
      rcases List.mem_cons.mp hk' with rfl | hk'
      · exact hP k (hall k (by simp))
      · exact hall k' (by simp [hk'])
    · cases hmi : mergeInto θ it ks with
      | none => rw [hmi] at h; cases h
      | some ks' =>
        rw [hmi] at h
        cases h
        intro k' hk'
        rcases List.mem_cons.mp hk' with rfl | hk'
        · exact hall k' (by simp)
        · exact ih hmi (fun x hx => hall x (by simp [hx])) k' hk'

/-! ## Facts about the stable descending sort -/

theorem insertItem_perm (x : Item) (l : List Item) :
    List.Perm (insertItem x l) (x :: l) := by
  induction l with
  | nil => rfl
  | cons y ys ih =>
    simp only [insertItem]
    split
    · exact List.Perm.refl _
    · exact (ih.cons y).trans (List.Perm.swap x y ys)

theorem pySortDesc_perm (l : List Item) : List.Perm (pySortDesc l) l := by
  induction l with
  | nil => rfl
  | cons x xs ih => exact (insertItem_perm x (pySortDesc xs)).trans (ih.cons x)

theorem insertItem_sorted {x : Item} {l : List Item}
    (h : List.Pairwise keyGeRel l) : List.Pairwise keyGeRel (insertItem x l) := by
  induction l with
  | nil => simp [insertItem]
  | cons y ys ih =>
    simp only [insertItem]
    split
    · rename_i hle
      refine List.Pairwise.cons ?_ h
      intro b hb
      rcases List.mem_cons.mp hb with rfl | hb
      · exact hle
      · exact keyLe_trans ((List.pairwise_cons.mp h).1 b hb) hle
    · rename_i hle
      have hyx : keyLe (itemKey x) (itemKey y) :=
        (keyLe_total (itemKey y) (itemKey x)).resolve_left hle
      refine List.Pairwise.cons ?_ (ih (List.pairwise_cons.mp h).2)
      intro b hb
      have hb' := (insertItem_perm x ys).mem_iff.mp hb
      rcases List.mem_cons.mp hb' with rfl | hb'
      · exact hyx
      · exact (List.pairwise_cons.mp h).1 b hb'

theorem pySortDesc_sorted (l : List Item) : List.Pairwise keyGeRel (pySortDesc l) := by
  induction l with
  | nil => simp [pySortDesc]
  | cons x xs ih => exact insertItem_sorted ih

/-- Sorting a list that is already descending-sorted is the identity. -/
theorem pySortDesc_eq_self {l : List Item} (h : List.Pairwise keyGeRel l) :
    pySortDesc l = l := by
  induction l with
  | nil => rfl
  | cons x xs ih =>
    have hx := (List.pairwise_cons.mp h).1
    have hxs := (List.pairwise_cons.mp h).2
    simp only [pySortDesc, ih hxs]
    cases xs with
    | nil => rfl
    | cons y ys =>
      simp only [insertItem]
      rw [if_pos (show keyLe (itemKey y) (itemKey x) from hx y (by simp))]

/-- Two permutations of the same items with pairwise-distinct sort keys
have the same stable descending sort: the sorted order is unique. -/
theorem pySortDesc_eq_of_perm {l₁ l₂ : List Item} (hp : List.Perm l₁ l₂)
    (hnd : List.Pairwise (fun a b : Item => itemKey a ≠ itemKey b) l₁) :
    pySortDesc l₁ = pySortDesc l₂ := by
  haveI : IsAntisymm Item keyGtRel :=
    ⟨fun _ _ h1 h2 => absurd (keyLe_antisymm h1.1 h2.1).symm h1.2⟩
  have hsym : ∀ {x y : Item}, itemKey x ≠ itemKey y → itemKey y ≠ itemKey x :=
    fun h => h.symm
  have hp' : List.Perm (pySortDesc l₁) (pySortDesc l₂) :=
    (pySortDesc_perm l₁).trans (hp.trans (pySortDesc_perm l₂).symm)
  have hnd₁ : List.Pairwise (fun a b : Item => itemKey a ≠ itemKey b) (pySortDesc l₁) :=
    ((pySortDesc_perm l₁).pairwise_iff hsym).mpr hnd
  have hnd₂ : List.Pairwise (fun a b : Item => itemKey a ≠ itemKey b) (pySortDesc l₂) :=
    (hp'.pairwise_iff hsym).mp hnd₁
  have hs₁ : List.Sorted keyGtRel (pySortDesc l₁) :=
    ((pySortDesc_sorted l₁).and hnd₁).imp fun h => ⟨h.1, h.2⟩
  have hs₂ : List.Sorted keyGtRel (pySortDesc l₂) :=
    ((pySortDesc_sorted l₂).and hnd₂).imp fun h => ⟨h.1, h.2⟩
  exact List.eq_of_perm_of_sorted hp' hs₁ hs₂

/-! ## Invariants of the dedup loop -/

/-- Any per-item predicate preserved by `mergeRecord` holds of every
kept item, provided it holds of the initial kept items and of every
processed item. -/
theorem dedupLoop_forall {θ : ℚ} (P : Item → Prop)
    (hP : ∀ k it : Item, P k → P (mergeRecord k it)) :
    ∀ (l : List Item) (seen : List String) (kept : List Item),
      (∀ k ∈ kept, P k) → (∀ x ∈ l, P x) →
      ∀ y ∈ (dedupLoop θ l seen kept).1, P y := by
  intro l
  induction l with
  | nil =>
    intro seen kept hk _ y hy
    simp only [dedupLoop] at hy
    exact hk y hy
  | cons it rest ih =>
    intro seen kept hk hl y hy
    simp only [dedupLoop] at hy
    split at hy
    · exact ih seen kept hk (fun x hx => hl x (List.mem_cons_of_mem _ hx)) y hy
    · cases hmi : mergeInto θ it kept with
      | some kept' =>
        rw [hmi] at hy
        exact ih seen kept'
          (mergeInto_forall P (fun k => hP k it) hmi hk)
          (fun x hx => hl x (List.mem_cons_of_mem _ hx)) y hy
      | none =>
        rw [hmi] at hy
        refine ih _ (kept ++ [it]) ?_ (fun x hx => hl x (List.mem_cons_of_mem _ hx)) y hy
        intro k hk'
        rcases List.mem_append.mp hk' with hk' | hk'
        · exact hk k hk'
        · rcases List.mem_singleton.mp hk' with rfl
          exact hl k (by simp)

/-- Every nonempty link of a kept item is in the final seen set, and the
kept links are pairwise distinct when nonempty. -/
theorem dedupLoop_links {θ : ℚ} :
    ∀ (l : List Item) (seen : List String) (kept : List Item),
      (∀ u ∈ kept.map Item.link, u ≠ "" → u ∈ seen) →
      List.Pairwise (fun u v : String => u ≠ "" → u ≠ v) (kept.map Item.link) →
      (∀ u ∈ (dedupLoop θ l seen kept).1.map Item.link, u ≠ "" →
        u ∈ (dedupLoop θ l seen kept).2) ∧
      List.Pairwise (fun u v : String => u ≠ "" → u ≠ v)
        ((dedupLoop θ l seen kept).1.map Item.link) := by
  intro l
  induction l with
  | nil =>
    intro seen kept h1 h2
    simp only [dedupLoop]
    exact ⟨h1, h2⟩
  | cons it rest ih =>
    intro seen kept h1 h2
    simp only [dedupLoop]
    split
    · exact ih seen kept h1 h2
    · rename_i hns
      cases hmi : mergeInto θ it kept with
      | some kept' =>
        have hmap := mergeInto_map Item.link (fun k => mergeRecord_link k it) hmi
        exact ih seen kept' (hmap ▸ h1) (hmap ▸ h2)
      | none =>
        refine ih _ (kept ++ [it]) ?_ ?_
        · intro u hu hune
          rw [List.map_append] at hu
          rcases List.mem_append.mp hu with hu | hu
          · have := h1 u hu hune
            split
            · exact List.mem_cons_of_mem _ this
            · exact this
          · have : u = it.link := by simpa using hu
            subst this
            rw [if_pos hune]
            exact List.mem_cons_self _ _
        · rw [List.map_append]
          refine List.pairwise_append.mpr ⟨h2, by simp, ?_⟩
          intro u hu v hv hune
          have hv' : v = it.link := by simpa using hv
          subst hv'
          intro huv
          rcases not_and_or.mp hns with hl0 | hnin
          · rw [not_ne_iff.mp hl0] at huv
            exact hune huv
          · exact hnin (huv ▸ h1 u hu hune)

/-- Any later kept item's title scores strictly below the threshold
against every earlier kept item's title. -/
theorem dedupLoop_dissim {θ : ℚ} :
    ∀ (l : List Item) (seen : List String) (kept : List Item),
      List.Pairwise (fun s t : String => title_sim t s < θ) (kept.map Item.title) →
      List.Pairwise (fun s t : String => title_sim t s < θ)
        ((dedupLoop θ l seen kept).1.map Item.title) := by
  intro l
  induction l with
  | nil =>
    intro seen kept h
    simpa only [dedupLoop] using h
  | cons it rest ih =>
    intro seen kept h
    simp only [dedupLoop]
    split
    · exact ih seen kept h
    · cases hmi : mergeInto θ it kept with
      | some kept' =>
        have hmap := mergeInto_map Item.title (fun k => mergeRecord_title k it) hmi
        exact ih seen kept' (hmap ▸ h)
      | none =>
        refine ih _ (kept ++ [it]) ?_
        rw [List.map_append]
        refine List.pairwise_append.mpr ⟨h, by simp, ?_⟩
        intro s hs t ht
        have ht' : t = it.title := by simpa using ht
        subst ht'
        rcases List.mem_map.mp hs with ⟨k, hk, rfl⟩
        exact mergeInto_none_iff.mp hmi k hk

/-- The kept list stays sorted by descending `(published_at, weight)`
key, provided the processed list is sorted and dominated by the kept
keys (which holds initially: `kept = []`, `l` freshly sorted). -/
theorem dedupLoop_sortedKeys {θ : ℚ} :
    ∀ (l : List Item) (seen : List String) (kept : List Item),
      List.Pairwise (fun p q : List Char × ℚ => keyLe q p) (kept.map itemKey) →
      (∀ p ∈ kept.map itemKey, ∀ x ∈ l, keyLe (itemKey x) p) →
      List.Pairwise keyGeRel l →
      List.Pairwise (fun p q : List Char × ℚ => keyLe q p)
        ((dedupLoop θ l seen kept).1.map itemKey) := by
  intro l
  induction l with
  | nil =>
    intro seen kept h1 _ _
    simpa only [dedupLoop] using h1
  | cons it rest ih =>
    intro seen kept h1 h2 h3
    have h3' := List.pairwise_cons.mp h3
    simp only [dedupLoop]
    split
    · exact ih seen kept h1 (fun p hp x hx => h2 p hp x (List.mem_cons_of_mem _ hx)) h3'.2
    · cases hmi : mergeInto θ it kept with
      | some kept' =>
        have hmap := mergeInto_map itemKey (fun k => mergeRecord_itemKey k it) hmi
        exact ih seen kept' (hmap ▸ h1)
          (hmap ▸ fun p hp x hx => h2 p hp x (List.mem_cons_of_mem _ hx)) h3'.2
      | none =>
        refine ih _ (kept ++ [it]) ?_ ?_ h3'.2
        · rw [List.map_append]
          refine List.pairwise_append.mpr ⟨h1, by simp, ?_⟩
          intro p hp q hq
          have hq' : q = itemKey it := by simpa using hq
          subst hq'
          exact h2 p hp it (by simp)
        · intro p hp x hx
          rw [List.map_append] at hp
          rcases List.mem_append.mp hp with hp | hp
          · exact h2 p hp x (List.mem_cons_of_mem _ hx)
          · have hp' : p = itemKey it := by simpa using hp
            subst hp'
            exact h3'.1 x hx

/-- A processed list that is pairwise dissimilar, has pairwise-distinct
nonempty links, scores below threshold against all initially kept
titles, and avoids the initial seen set, is appended verbatim. -/
theorem dedupLoop_id {θ : ℚ} :
    ∀ (l : List Item) (seen : List String) (kept : List Item),
      (∀ x ∈ l, ∀ k ∈ kept, title_sim x.title k.title < θ) →
      (∀ x ∈ l, x.link ≠ "" → x.link ∉ seen) →
      List.Pairwise (fun a b : Item => title_sim b.title a.title < θ) l →
      List.Pairwise (fun a b : Item => a.link ≠ "" → a.link ≠ b.link) l →
      (dedupLoop θ l seen kept).1 = kept ++ l := by
  intro l
  induction l with
  | nil =>
    intro seen kept _ _ _ _
    simp [dedupLoop]
  | cons it rest ih =>
    intro seen kept h1 h2 h3 h4
    have h3' := List.pairwise_cons.mp h3
    have h4' := List.pairwise_cons.mp h4
    simp only [dedupLoop]
    rw [if_neg, mergeInto_none_iff.mpr (h1 it (by simp))]
    · have hrec := ih (if it.link ≠ "" then it.link :: seen else seen) (kept ++ [it])
        ?_ ?_ h3'.2 h4'.2
      · rw [hrec, List.append_assoc]
        rfl
      · intro x hx k hk
        rcases List.mem_append.mp hk with hk | hk
        · exact h1 x (List.mem_cons_of_mem _ hx) k hk
        · have hk' : k = it := by simpa using hk
          subst hk'
          exact h3'.1 x hx
      · intro x hx hxne
        split
        · rename_i hitne
          intro hmem
          rcases List.mem_cons.mp hmem with heq | hmem
          · exact (h4'.1 x hx hitne) heq.symm
          · exact h2 x (List.mem_cons_of_mem _ hx) hxne hmem
        · exact h2 x (List.mem_cons_of_mem _ hx) hxne
    · intro hcon
      exact h2 it (by simp) hcon.1 hcon.2

/-- The inner loop *is* "update the first sufficiently similar kept
item in place". -/
theorem mergeInto_eq_firstMatchIdx {θ : ℚ} {it : Item} :
    ∀ kept : List Item,
      mergeInto θ it kept =
        (firstMatchIdx θ it kept).map fun i => updateAt i (fun k => mergeRecord k it) kept := by
  intro kept
  induction kept with
  | nil => rfl
  | cons k ks ih =>
    simp only [mergeInto, firstMatchIdx]
    split
    · rfl
    · rw [ih]
      cases firstMatchIdx θ it ks with
      | none => rfl
      | some i => rfl

/-- The source loop and the (amended) specification fold compute the
same `(kept, seen)` state. -/
theorem dedupLoop_eq_foldl {θ : ℚ} :
    ∀ (l : List Item) (seen : List String) (kept : List Item),
      dedupLoop θ l seen kept = l.foldl (specStepC1A θ) (kept, seen) := by
  intro l
  induction l with
  | nil => intro seen kept; rfl
  | cons it rest ih =>
    intro seen kept
    simp only [dedupLoop, List.foldl_cons, specStepC1A]
    split
    · exact ih seen kept
    · rw [mergeInto_eq_firstMatchIdx kept]
      cases firstMatchIdx θ it kept with
      | some i => exact ih seen _
      | none => exact ih _ _

/-! ## Region-fold characterization and further helpers -/

theorem collectFold_spec (parse : String → Option ℚ) (fmt : ℚ → String) (cutoff : ℚ)
    (fetch : Source → Except String (String × List ParsedEntry)) :
    ∀ (srcs : List Source) (acc : List Item × List ErrEntry),
      srcs.foldl (collectStep parse fmt cutoff fetch) acc =
        (acc.1 ++ (srcs.map fun src =>
            match fetch src with
            | .ok r => collectOne parse fmt cutoff src r.1 r.2
            | .error _ => []).flatten,
         acc.2 ++ srcs.filterMap fun src =>
            match fetch src with
            | .ok _ => none
            | .error e => some ⟨src.id, e⟩) := by
  intro srcs
  induction srcs with
  | nil => intro acc; simp
  | cons src rest ih =>
    intro acc
    rw [List.foldl_cons, ih]
    cases hf : fetch src with
    | ok r => simp [collectStep, hf]
    | error e => simp [collectStep, hf]

theorem collectRegion_items (θ cutoff : ℚ) (parse : String → Option ℚ) (fmt : ℚ → String)
    (fetch : Source → Except String (String × List ParsedEntry)) (srcs : List Source) :
    (collectRegion θ cutoff parse fmt fetch srcs).items =
      _dedup θ ((srcs.map fun src =>
        match fetch src with
        | .ok r => collectOne parse fmt cutoff src r.1 r.2
        | .error _ => []).flatten) := by
  simp [collectRegion, collectFold_spec]

theorem collectRegion_errors (θ cutoff : ℚ) (parse : String → Option ℚ) (fmt : ℚ → String)
    (fetch : Source → Except String (String × List ParsedEntry)) (srcs : List Source) :
    (collectRegion θ cutoff parse fmt fetch srcs).errors =
      srcs.filterMap fun src =>
        match fetch src with
        | .ok _ => none
        | .error e => some ⟨src.id, e⟩ := by
  simp [collectRegion, collectFold_spec]

/-- An item surviving the filter step carries the print of a timestamp
no older than the cutoff. -/
theorem entryItem_published {parse : String → Option ℚ} {fmt : ℚ → String} {cutoff : ℚ}
    {src : Source} {url : String} {e : ParsedEntry} {x : Item}
    (h : entryItem parse fmt cutoff src url e = some x) :
    ∃ t : ℚ, cutoff ≤ t ∧ x.published_at = fmt t := by
  unfold entryItem at h
  dsimp only at h
  split at h
  · cases h
  · rename_i dt hdt
    split at h
    · cases h
    · rename_i hlt
      cases h
      exact ⟨dt, not_lt.mp hlt, rfl⟩

/-- Per-item predicates preserved by `mergeRecord` lift from the input
to the dedup output. -/
theorem _dedup_forall (θ : ℚ) (P : Item → Prop)
    (hP : ∀ k it : Item, P k → P (mergeRecord k it)) (items : List Item)
    (h : ∀ x ∈ items, P x) : ∀ y ∈ _dedup θ items, P y :=
  dedupLoop_forall P hP (pySortDesc items) [] [] (by simp)
    (fun x hx => h x ((pySortDesc_perm items).mem_iff.mp hx))

/-- `mergeRecord` never records the primary's own link or source. -/
theorem mergeRecord_own (k it : Item)
    (h : k.link ∉ k.alt_links ∧ k.source ∉ k.alt_sources) :
    (mergeRecord k it).link ∉ (mergeRecord k it).alt_links ∧
    (mergeRecord k it).source ∉ (mergeRecord k it).alt_sources := by
  simp only [mergeRecord]
  constructor
  · split
    · rename_i hc
      intro hmem
      rcases List.mem_append.mp hmem with hm | hm
      · exact h.1 hm
      · exact hc.2.2 ((List.mem_singleton.mp hm)).symm
    · exact h.1
  · split
    · rename_i hc
      intro hmem
      rcases List.mem_append.mp hmem with hm | hm
      · exact h.2 hm
      · exact hc.2.2 ((List.mem_singleton.mp hm)).symm
    · exact h.2

/-- `mergeRecord` never appends an empty string to `alt_links`. -/
theorem mergeRecord_no_empty (k it : Item) (h : "" ∉ k.alt_links) :
    "" ∉ (mergeRecord k it).alt_links := by
  simp only [mergeRecord]
  split
  · rename_i hc
    intro hmem
    rcases List.mem_append.mp hmem with hm | hm
    · exact h hm
    · exact hc.1 ((List.mem_singleton.mp hm)).symm
  · exact h

/-- The empty string is never added to the seen-link set. -/
theorem dedupLoop_seen_no_empty {θ : ℚ} :
    ∀ (l : List Item) (seen : List String) (kept : List Item),
      "" ∉ seen → "" ∉ (dedupLoop θ l seen kept).2 := by
  intro l
  induction l with
  | nil =>
    intro seen kept h
    simpa only [dedupLoop] using h
  | cons it rest ih =>
    intro seen kept h
    simp only [dedupLoop]
    split
    · exact ih seen kept h
    · cases mergeInto θ it kept with
      | some kept' => exact ih seen kept' h
      | none =>
        refine ih _ _ ?_
        split
        · rename_i hne
          intro hmem
          rcases List.mem_cons.mp hmem with heq | hmem
          · exact hne heq.symm
          · exact h hmem
        · exact h

/-! ## Claims -/

/-- C1 (counterexample): the claim describes `_dedup` as "sort, then
merge-or-keep by title similarity" with no exact-link suppression step.
On two items sharing a link but with unrelated titles, `_dedup`
discards the second outright while the described procedure keeps both:
the two disagree. -/
theorem claim_C1_counterexample :
    _dedup (mkRat 9 10) [itDupA, itDupB] ≠ specDedupC1 (mkRat 9 10) [itDupA, itDupB] := by
  decide

/-- C1 (amended): with the exact-link suppression step restored (an
item whose nonempty link is already seen is discarded outright,
recording nothing) and the truthiness guards restored (an empty link is
never appended to `alt_links`, an empty source name never to
`alt_sources`), the description coincides with `_dedup` on every input
list and threshold. -/
theorem claim_C1_amended (θ : ℚ) (items : List Item) :
    _dedup θ items = specDedupC1A θ items := by
  unfold _dedup specDedupC1A
  rw [dedupLoop_eq_foldl]

/-- C2: deduplication is idempotent — re-running `_dedup` on its own
output returns the output unchanged (same items, same order, same
`alt_links` / `alt_sources`), for every input list and threshold. -/
theorem claim_C2_dedup_idempotent (θ : ℚ) (items : List Item) :
    _dedup θ (_dedup θ items) = _dedup θ items := by
  have hsorted : List.Pairwise keyGeRel (_dedup θ items) := by
    have h := dedupLoop_sortedKeys (θ := θ) (pySortDesc items) [] [] (by simp) (by simp)
      (pySortDesc_sorted items)
    have h2 := List.pairwise_map.mp h
    exact h2
  have hdis : List.Pairwise (fun a b : Item => title_sim b.title a.title < θ)
      (_dedup θ items) := by
    have h := dedupLoop_dissim (θ := θ) (pySortDesc items) [] [] (by simp)
    have h2 := List.pairwise_map.mp h
    exact h2
  have hlink : List.Pairwise (fun a b : Item => a.link ≠ "" → a.link ≠ b.link)
      (_dedup θ items) := by
    have h := (dedupLoop_links (θ := θ) (pySortDesc items) [] [] (by simp) (by simp)).2
    have h2 := List.pairwise_map.mp h
    exact h2
  show (dedupLoop θ (pySortDesc (_dedup θ items)) [] []).1 = _dedup θ items
  rw [pySortDesc_eq_self hsorted]
  rw [dedupLoop_id (_dedup θ items) [] [] (by simp) (by simp) hdis hlink]
  simp

/-- C3 (counterexample): the dedup output is *not* independent of the
accumulation order.  Two items with equal `(published_at, weight)` sort
keys, unrelated titles and distinct links are both kept, but the stable
sort preserves their arrival order, so the two orderings of the same
two-element set produce differently-ordered outputs. -/
theorem claim_C3_counterexample :
    List.Perm [itTieA, itTieB] [itTieB, itTieA] ∧
    _dedup (mkRat 9 10) [itTieB, itTieA] ≠ _dedup (mkRat 9 10) [itTieA, itTieB] := by
  constructor
  · exact List.Perm.swap itTieB itTieA []
  · decide

/-- C3 (amended): the output is invariant under permutations of the
input whenever all items have pairwise-distinct `(published_at, weight)`
sort keys — ties in both components are exactly the case the stable
sort resolves by arrival order. -/
theorem claim_C3_amended (θ : ℚ) (l₁ l₂ : List Item) (hp : List.Perm l₁ l₂)
    (hnd : List.Pairwise (fun a b : Item => itemKey a ≠ itemKey b) l₁) :
    _dedup θ l₁ = _dedup θ l₂ := by
  unfold _dedup
  rw [pySortDesc_eq_of_perm hp hnd]

/-- Witness for C3 (amended) at a concrete two-item permutation with
distinct keys. -/
theorem claim_C3_witness :
    _dedup (mkRat 9 10) [itW1, itW2] = _dedup (mkRat 9 10) [itW2, itW1] :=
  claim_C3_amended (mkRat 9 10) [itW1, itW2] [itW2, itW1]
    (List.Perm.swap itW2 itW1 []) (by decide)

/-- C6: the specification's scenario.  Threshold 3/5; item A published
at T with weight 1, title "Fed cuts rates", link L1; item B published a
minute earlier, weight 1, title "Fed Cuts Rates by 25bps", link L2.
`_dedup` keeps exactly A, with `alt_links = [L2]` (and B's source
recorded). -/
theorem claim_C6_scenario :
    _dedup (mkRat 3 5) [itFedA, itFedB] =
      [{ itFedA with alt_links := ["L2"], alt_sources := ["s2"] }] := by
  decide

/-- C4 (counterexample): "no two kept items have equal links" fails for
empty links — two items with empty links and unrelated titles are both
kept, and their links are equal. -/
theorem claim_C4_counterexample :
    ¬ List.Pairwise (fun a b : Item => a.link ≠ b.link)
      (_dedup (mkRat 9 10) [itNilA, itNilB]) := by
  decide

/-- C4 (amended): no two kept items share an equal *nonempty* link, and
an item whose nonempty link is already in the seen set is discarded
outright — before any similarity comparison and without recording
anything (the loop state is exactly as if the item had not occurred). -/
theorem claim_C4_amended (θ : ℚ) (items : List Item) (seen : List String)
    (kept : List Item) (it : Item) (rest : List Item)
    (hne : it.link ≠ "") (hseen : it.link ∈ seen) :
    List.Pairwise (fun a b : Item => a.link ≠ "" → a.link ≠ b.link) (_dedup θ items) ∧
    dedupLoop θ (it :: rest) seen kept = dedupLoop θ rest seen kept := by
  constructor
  · have h := (dedupLoop_links (θ := θ) (pySortDesc items) [] [] (by simp) (by simp)).2
    have h2 := List.pairwise_map.mp h
    exact h2
  · simp only [dedupLoop]
    rw [if_pos ⟨hne, hseen⟩]

/-- Witness for C4 (amended) at concrete inputs. -/
theorem claim_C4_witness :
    List.Pairwise (fun a b : Item => a.link ≠ "" → a.link ≠ b.link)
      (_dedup (mkRat 9 10) [itDupA, itDupB]) ∧
    dedupLoop (mkRat 9 10) [itDupB] ["https://x/1"] [itDupA] =
      dedupLoop (mkRat 9 10) [] ["https://x/1"] [itDupA] :=
  claim_C4_amended (mkRat 9 10) [itDupA, itDupB] ["https://x/1"] [itDupA] itDupB []
    (by decide) (by decide)

/-- C7 (counterexample): for arbitrary input lists the claim fails — an
input item whose `alt_links` already contains its own link is kept
untouched, so the output violates the stated invariant. -/
theorem claim_C7_counterexample :
    ¬ (∀ y ∈ _dedup (mkRat 9 10) [itSelfAlt],
        y.link ∉ y.alt_links ∧ y.source ∉ y.alt_sources) := by
  decide

/-- C7 (amended): whenever no *input* item's `alt_links` contains its
own link and no input item's `alt_sources` contains its own source name
(in particular for the alt-free items the collector feeds in), the same
holds of every kept item: the merge step never records the primary's
own link or source. -/
theorem claim_C7_amended (θ : ℚ) (items : List Item)
    (h : ∀ x ∈ items, x.link ∉ x.alt_links ∧ x.source ∉ x.alt_sources) :
    ∀ y ∈ _dedup θ items, y.link ∉ y.alt_links ∧ y.source ∉ y.alt_sources :=
  _dedup_forall θ (fun x => x.link ∉ x.alt_links ∧ x.source ∉ x.alt_sources)
    mergeRecord_own items h

/-- Witness for C7 (amended) at a concrete input. -/
theorem claim_C7_witness :
    itDupA.link ∉ itDupA.alt_links ∧ itDupA.source ∉ itDupA.alt_sources :=
  claim_C7_amended (mkRat 9 10) [itDupA] (by decide) itDupA (by decide)

/-- C9: items with empty links bypass exact-link suppression — two
empty-link items with unrelated titles are both kept; the empty string
is never added to the seen-link set; and (for inputs whose `alt_links`
do not already contain it) the empty string is never appended to any
kept item's `alt_links`, since the merge step's truthiness guard
excludes it. -/
theorem claim_C9_empty_link_bypass :
    _dedup (mkRat 9 10) [itNilA, itNilB] = [itNilA, itNilB] ∧
    (∀ (θ : ℚ) (l : List Item) (seen : List String) (kept : List Item),
      "" ∉ seen → "" ∉ (dedupLoop θ l seen kept).2) ∧
    (∀ (θ : ℚ) (items : List Item), (∀ x ∈ items, "" ∉ x.alt_links) →
      ∀ y ∈ _dedup θ items, "" ∉ y.alt_links) := by
  refine ⟨by decide, ?_, ?_⟩
  · intro θ l seen kept h
    exact dedupLoop_seen_no_empty l seen kept h
  · intro θ items h
    exact _dedup_forall θ (fun x => "" ∉ x.alt_links)
      (fun k it hk => mergeRecord_no_empty k it hk) items h

/-- Witness for C9 at concrete inputs. -/
theorem claim_C9_witness :
    "" ∉ (dedupLoop (mkRat 9 10) [itDupB] ["u"] []).2 :=
  claim_C9_empty_link_bypass.2.1 (mkRat 9 10) [itDupB] ["u"] [] (by decide)

/-- Helper: when every fetch fails, no region items accumulate. -/
theorem allErr_flatten (parse : String → Option ℚ) (fmt : ℚ → String) (cutoff : ℚ)
    (fetch : Source → Except String (String × List ParsedEntry)) :
    ∀ srcs : List Source, (∀ s ∈ srcs, isErr (fetch s) = true) →
      (srcs.map fun src =>
        match fetch src with
        | .ok r => collectOne parse fmt cutoff src r.1 r.2
        | .error _ => []).flatten = ([] : List Item) := by
  intro srcs
  induction srcs with
  | nil => intro _; rfl
  | cons src rest ih =>
    intro hall
    cases hf : fetch src with
    | ok r =>
      have := hall src (by simp)
      rw [hf] at this
      cases this
    | error e =>
      simp only [List.map_cons, hf, List.flatten_cons, List.nil_append]
      exact ih fun s hs => hall s (by simp [hs])

/-- Helper: when every fetch fails, exactly one error entry per source. -/
theorem allErr_length (fetch : Source → Except String (String × List ParsedEntry)) :
    ∀ srcs : List Source, (∀ s ∈ srcs, isErr (fetch s) = true) →
      (srcs.filterMap fun src =>
        match fetch src with
        | .ok _ => none
        | .error e => some (⟨src.id, e⟩ : ErrEntry)).length = srcs.length := by
  intro srcs
  induction srcs with
  | nil => intro _; rfl
  | cons src rest ih =>
    intro hall
    cases hf : fetch src with
    | ok r =>
      have := hall src (by simp)
      rw [hf] at this
      cases this
    | error e =>
      simp only [List.filterMap_cons, hf, List.length_cons]
      rw [ih fun s hs => hall s (by simp [hs])]

/-- C5: whenever `collect` succeeds, every item in any region's `items`
carries the print of a timestamp no older than `cutoff_utc`
(= generated-time minus `window_hours`, in seconds), and a parsed entry
whose `published_at` is null, empty or unparsable produces no item. -/
theorem claim_C5_recency (cfg : YVal) (nowT wh : ℚ) (parse : String → Option ℚ)
    (fmt : ℚ → String) (fetch : Source → Except String (String × List ParsedEntry))
    (regions : List (String × List Source)) (res : CollectionResult)
    (hok : collect cfg nowT wh parse fmt fetch regions = .ok res) :
    (∀ r ∈ res.regions, ∀ item ∈ r.2.items,
      ∃ t : ℚ, res.cutoff_utc ≤ t ∧ item.published_at = fmt t) ∧
    (∀ (cutoff : ℚ) (src : Source) (url : String) (e : ParsedEntry),
      (e.published_at = none ∨ ∃ s, e.published_at = some s ∧ (s = "" ∨ parse s = none)) →
      entryItem parse fmt cutoff src url e = none) := by
  constructor
  · unfold collect at hok
    cases hθ : getThreshold cfg with
    | error er => rw [hθ] at hok; cases hok
    | ok θ =>
      rw [hθ] at hok
      simp only [Except.map] at hok
      cases hok
      intro r hr item hitem
      rcases List.mem_map.mp hr with ⟨rg, hrg, rfl⟩
      rw [collectRegion_items] at hitem
      refine _dedup_forall _ (fun x => ∃ t : ℚ, nowT - wh * 3600 ≤ t ∧ x.published_at = fmt t)
        (fun k it hk => hk) _ ?_ item hitem
      intro x hx
      rcases List.mem_flatten.mp hx with ⟨lst, hlst, hxl⟩
      rcases List.mem_map.mp hlst with ⟨src, hsrc, rfl⟩
      cases hf : fetch src with
      | ok r2 =>
        rw [hf] at hxl
        rcases List.mem_filterMap.mp hxl with ⟨e, _, hee⟩
        exact entryItem_published hee
      | error er =>
        rw [hf] at hxl
        cases hxl
  · intro cutoff src url e he
    unfold entryItem
    rcases he with he | ⟨s, hs, hbad⟩
    · rw [he]
    · rw [hs]
      rcases hbad with rfl | hparse
      · simp
      · simp [hparse]

/-- Witness for C5 at concrete inputs: an unparsable timestamp yields
no item. -/
theorem claim_C5_witness :
    entryItem (fun _ => none) (fun _ => "t") 0 srcB "u" peBad = none :=
  (claim_C5_recency (.dict []) 0 0 (fun _ => none) (fun _ => "t")
      (fun _ => .ok ("u", [])) []
      { generated_at := 0, window_hours := 0, cutoff_utc := 0 - 0 * 3600, regions := [] }
      rfl).2 0 srcB "u" peBad (Or.inr ⟨"garbage", rfl, Or.inr rfl⟩)

/-- C8: source-level faults are isolated.  The region's error list is
exactly one `{source, error}` entry per failing source, in source
order; the region's items come only from the succeeding sources (a
failing source contributes no partial items); whenever the threshold
parses, `collect` produces a complete result with one entry per
region, whatever `fetch` does; and when every source fails the region
degrades to empty items with one error per source. -/
theorem claim_C8_fault_isolation (θ cutoff : ℚ) (parse : String → Option ℚ)
    (fmt : ℚ → String) (fetch : Source → Except String (String × List ParsedEntry))
    (srcs : List Source) (cfg : YVal) (nowT wh : ℚ)
    (regions : List (String × List Source)) :
    (collectRegion θ cutoff parse fmt fetch srcs).errors =
      (srcs.filterMap fun src =>
        match fetch src with
        | .ok _ => none
        | .error e => some ⟨src.id, e⟩) ∧
    (collectRegion θ cutoff parse fmt fetch srcs).items =
      _dedup θ ((srcs.map fun src =>
        match fetch src with
        | .ok r => collectOne parse fmt cutoff src r.1 r.2
        | .error _ => []).flatten) ∧
    (∀ θ0 : ℚ, getThreshold cfg = .ok θ0 →
      ∃ res : CollectionResult, collect cfg nowT wh parse fmt fetch regions = .ok res ∧
        res.regions.length = regions.length) ∧
    ((∀ src ∈ srcs, isErr (fetch src) = true) →
      (collectRegion θ cutoff parse fmt fetch srcs).items = [] ∧
      (collectRegion θ cutoff parse fmt fetch srcs).errors.length = srcs.length) := by
  refine ⟨collectRegion_errors θ cutoff parse fmt fetch srcs,
    collectRegion_items θ cutoff parse fmt fetch srcs, ?_, ?_⟩
  · intro θ0 h
    refine ⟨⟨nowT, wh, nowT - wh * 3600,
      regions.map (fun r => (r.1, collectRegion θ0 (nowT - wh * 3600) parse fmt fetch r.2))⟩,
      ?_, ?_⟩
    · unfold collect
      rw [h]
      rfl
    · simp
  · intro hall
    constructor
    · rw [collectRegion_items, allErr_flatten parse fmt cutoff fetch srcs hall]
      rfl
    · rw [collectRegion_errors]
      exact allErr_length fetch srcs hall

/-- Witness for C8 at concrete inputs: source `a` fails, source `b`
succeeds; the region records exactly `{source: a, error: boom}`. -/
theorem claim_C8_witness :
    (collectRegion 1 0 (fun _ => none) (fun _ => "t") fetchW [srcA, srcB]).errors =
      [⟨"a", "boom"⟩] := by
  have h := (claim_C8_fault_isolation 1 0 (fun _ => none) (fun _ => "t") fetchW
    [srcA, srcB] (.dict []) 0 0 []).1
  rw [h]
  decide

/-- C10: the threshold lookup indexes `rules[1]` unconditionally.  When
`global.deduplication.rules` is present as a list with fewer than two
elements, the lookup raises (and `collect` aborts before touching any
source, whatever `fetch` does); when the whole path is absent, the
defaults flow through and the threshold is 0.9. -/
theorem claim_C10_threshold_rules :
    (∀ (ce ge de : List (String × YVal)) (rs : List YVal),
      ce.lookup "global" = some (.dict ge) →
      ge.lookup "deduplication" = some (.dict de) →
      de.lookup "rules" = some (.list rs) →
      rs.length < 2 →
      isErr (getThreshold (.dict ce)) = true ∧
      (∀ (nowT wh : ℚ) (parse : String → Option ℚ) (fmt : ℚ → String)
        (fetch : Source → Except String (String × List ParsedEntry))
        (regions : List (String × List Source)),
        isErr (collect (.dict ce) nowT wh parse fmt fetch regions) = true)) ∧
    (∀ ce : List (String × YVal), ce.lookup "global" = none →
      getThreshold (.dict ce) = .ok (mkRat 9 10)) := by
  constructor
  · intro ce ge de rs h1 h2 h3 hlen
    have hidx : rs[1]? = none := List.getElem?_eq_none (by omega)
    have hget : getThreshold (.dict ce) = .error "IndexError: list index out of range" := by
      simp [getThreshold, dictGet, h1, h2, h3, index1, hidx]
    refine ⟨by rw [hget]; rfl, ?_⟩
    intro nowT wh parse fmt fetch regions
    unfold collect
    rw [hget]
    rfl
  · intro ce h
    simp [getThreshold, dictGet, h, index1, pyFloat]

/-- Witness for C10 at concrete configurations: a one-element rules
list raises; an empty configuration yields 0.9. -/
theorem claim_C10_witness :
    isErr (getThreshold cfgShortRules) = true ∧
    getThreshold (.dict []) = .ok (mkRat 9 10) :=
  ⟨(claim_C10_threshold_rules.1
      [("global", .dict [("deduplication", .dict [("rules", .list [.dict []])])])]
      [("deduplication", .dict [("rules", .list [.dict []])])]
      [("rules", .list [.dict []])] [.dict []] rfl rfl rfl (by decide)).1,
   claim_C10_threshold_rules.2 [] rfl⟩
